import Mathlib

/-!
Verification of the calendar/scheduling core of the `helper-scripts` repository:
the backup tier classifier (`get_next_tape.py`: `calculate_backup_pool`,
`is_public_holiday`, `extract_tape_label`) and the skip-day generator
(`get_skip_days.py`: the scanning loop and Friday rule inside `main`).

Dates are modelled in two faithful views of Python's `datetime.date`:

* a `Date` record (year, month, day) for the tier classifier, whose fields the
  source reads directly (`backup_day.day`, `backup_day.month`), together with
  `toordinal` (the proleptic-Gregorian ordinal, exactly CPython's
  `date.toordinal`) from which `weekday()` is derived, and `nextDay`, the
  calendar successor (what `today + timedelta(days=1)` produces on valid dates);
* a bare ordinal (`Nat`, Python's `date.toordinal()` value) for the skip-day
  generator, which only ever compares dates, steps them by one day, and asks
  for their weekday — all of which Python's `date` performs exactly as the
  ordinal does (`d1 <= d2` iff `ord d1 <= ord d2`, `d + timedelta(days=1)` is
  `ord + 1`, `d.weekday() = (ord d + 6) % 7`).
-/

/-- A calendar date: a plain (year, month, day) record, as in Python's
`datetime.date`. -/
structure Date where
  year : Nat
  month : Nat
  day : Nat
deriving DecidableEq, Repr

/-- Gregorian leap-year rule, as in CPython's `datetime._is_leap`. -/
def is_leap (year : Nat) : Bool :=
  year % 4 == 0 && (year % 100 != 0 || year % 400 == 0)

/-- Month lengths of a non-leap year (January first), CPython's
`_DAYS_IN_MONTH` table. -/
def days_in_month_table : List Nat :=
  [31, 28, 31, 30, 31, 30, 31, 31, 30, 31, 30, 31]

/-- Number of days in a month, as in CPython's `datetime._days_in_month`. -/
def days_in_month (year month : Nat) : Nat :=
  if month = 2 ∧ is_leap year then 29
  else days_in_month_table.getD (month - 1) 0

/-- Number of days before January 1st of `year`, CPython's
`datetime._days_before_year`. -/
def days_before_year (year : Nat) : Nat :=
  let y := year - 1
  y * 365 + y / 4 - y / 100 + y / 400

/-- Number of days in `year` strictly before the first of `month`, CPython's
`datetime._days_before_month`. -/
def days_before_month (year month : Nat) : Nat :=
  (((List.range (month - 1)).map fun m => days_in_month year (m + 1)).foldr (· + ·) 0)

/-- Proleptic-Gregorian ordinal of a date, with `0001-01-01` having ordinal 1:
CPython's `date.toordinal()` (`datetime._ymd2ord`). -/
def toordinal (d : Date) : Nat :=
  days_before_year d.year + days_before_month d.year d.month + d.day

/-- Python's `date.weekday()`: Monday = 0 … Sunday = 6. Ordinal 1
(0001-01-01) is a Monday, so the weekday is `(ordinal + 6) % 7`
(equal to `(ordinal - 1) % 7` on all real ordinals, which are ≥ 1). -/
def date_weekday (d : Date) : Nat :=
  (toordinal d + 6) % 7

/-- The calendar successor of a date: the value Python's
`today + datetime.timedelta(days=1)` has on valid dates. -/
def nextDay (d : Date) : Date :=
  if d.day < days_in_month d.year d.month then ⟨d.year, d.month, d.day + 1⟩
  else if d.month < 12 then ⟨d.year, d.month + 1, 1⟩
  else ⟨d.year + 1, 1, 1⟩

/-- `get_next_tape.py` line 23: `is_public_holiday(today, holidays)` is
`today in holidays`. -/
def is_public_holiday (today : Date) (holidays : List Date) : Bool :=
  holidays.contains today

/-- `get_next_tape.py` lines 27-49: `calculate_backup_pool(today, holidays)`.
The backup day is tomorrow (`today + timedelta(days=1)`); Sundays and public
holidays yield `None`; Saturdays yield `"Yearly"` (day ≤ 7 and month in
[2, 8]), `"Monthly"` (day ≤ 7), or `"Weekly"`; any other weekday yields
`"Daily"`. -/
def calculate_backup_pool (today : Date) (holidays : List Date) : Option String :=
  let backup_day := nextDay today
  if date_weekday backup_day == 6 || is_public_holiday backup_day holidays then
    none
  else if date_weekday backup_day == 5 then
    if backup_day.day ≤ 7 && (backup_day.month == 2 || backup_day.month == 8) then
      some "Yearly"
    else if backup_day.day ≤ 7 then
      some "Monthly"
    else
      some "Weekly"
  else
    some "Daily"

/-- The code points Python's `\d` matches in a `str` pattern compiled
without `re.ASCII`: every Unicode decimal digit, i.e. general category Nd
(Unicode 14.0.0, the table of the CPython build the scripts run on), as 62
closed code-point ranges — ASCII `0-9`, Arabic-Indic, Devanagari, …,
mathematical and Adlam digits. -/
def re_digit_ranges : List (Nat × Nat) :=
  [(48, 57), (1632, 1641), (1776, 1785), (1984, 1993), (2406, 2415),
   (2534, 2543), (2662, 2671), (2790, 2799), (2918, 2927), (3046, 3055),
   (3174, 3183), (3302, 3311), (3430, 3439), (3558, 3567), (3664, 3673),
   (3792, 3801), (3872, 3881), (4160, 4169), (4240, 4249), (6112, 6121),
   (6160, 6169), (6470, 6479), (6608, 6617), (6784, 6793), (6800, 6809),
   (6992, 7001), (7088, 7097), (7232, 7241), (7248, 7257), (42528, 42537),
   (43216, 43225), (43264, 43273), (43472, 43481), (43504, 43513),
   (43600, 43609), (44016, 44025), (65296, 65305), (66720, 66729),
   (68912, 68921), (69734, 69743), (69872, 69881), (69942, 69951),
   (70096, 70105), (70384, 70393), (70736, 70745), (70864, 70873),
   (71248, 71257), (71360, 71369), (71472, 71481), (71904, 71913),
   (72016, 72025), (72784, 72793), (73040, 73049), (73120, 73129),
   (92768, 92777), (92864, 92873), (93008, 93017), (120782, 120831),
   (123200, 123209), (123632, 123641), (125264, 125273), (130032, 130041)]

/-- Whether a character is a digit in the sense of the pattern's `\d`: its
code point lies in one of the Unicode decimal-digit ranges. -/
def is_re_digit (c : Char) : Bool :=
  re_digit_ranges.any fun p => decide (p.1 ≤ c.toNat) && decide (c.toNat ≤ p.2)

/-- The longest run of decimal digits (in the `\d` sense, Unicode-wide) at
the front of a character list: what the greedy `\d+` of the pattern in
`extract_tape_label` consumes (it matches one or more digits, as many as
possible). -/
def takeDigits : List Char → List Char
  | [] => []
  | c :: cs => if is_re_digit c then c :: takeDigits cs else []

/-- Whether the first list is an initial segment of the second (the literal
part `Daily`, `Weekly`, … of an alternative matching at the current
position). -/
def startsWith : List Char → List Char → Bool
  | [], _ => true
  | _ :: _, [] => false
  | a :: as, b :: bs => a == b && startsWith as bs

/-- One alternative `name\d+` of the pattern tried at the front of `s`: the
literal `name` followed by one or more digits, taken greedily. -/
def tryName (name s : List Char) : Option (List Char) :=
  if startsWith name s then
    if takeDigits (s.drop name.length) = [] then none
    else some (name ++ takeDigits (s.drop name.length))
  else none

/-- The four alternatives of the pattern
`(Daily\d+|Weekly\d+|Monthly\d+|Yearly\d+)`, in the order the regex tries
them at each position. -/
def tryAlts (s : List Char) : Option (List Char) :=
  match tryName ("Daily".toList) s with
  | some r => some r
  | none =>
    match tryName ("Weekly".toList) s with
    | some r => some r
    | none =>
      match tryName ("Monthly".toList) s with
      | some r => some r
      | none => tryName ("Yearly".toList) s

/-- `re.search`: try the pattern at every position left to right and return
the first match. -/
def search_label : List Char → Option (List Char)
  | [] => none
  | c :: cs =>
    match tryAlts (c :: cs) with
    | some r => some r
    | none => search_label cs

/-- `get_next_tape.py` lines 62-66: `extract_tape_label(tape_info)` is
`re.search(r'(Daily\d+|Weekly\d+|Monthly\d+|Yearly\d+)', tape_info)`,
returning the matched group or `None`. -/
def extract_tape_label (tape_info : List Char) : Option (List Char) :=
  search_label tape_info

/-- Python's `date.weekday()` on an ordinal (see `date_weekday`):
Monday = 0 … Sunday = 6. -/
def ord_weekday (d : Nat) : Nat :=
  (d + 6) % 7

/-- The scanning loop of `get_skip_days.py` lines 157-164, unrolled on the
number of remaining iterations: visit `current_date`, `current_date + 1`, …
for `n` days, collecting every visited date whose weekday is Monday–Friday
(`weekday() < 5`) and whose previous day (`current_date - timedelta(days=1)`)
is a source holiday. Dates are ordinals (see the header comment). -/
def scan_go (current_date : Nat) (source_holidays : List Nat) : Nat → List Nat
  | 0 => []
  | n + 1 =>
    (if ord_weekday current_date < 5 ∧ (current_date - 1) ∈ source_holidays then
      [current_date]
    else []) ++ scan_go (current_date + 1) source_holidays n

/-- `get_skip_days.py` lines 157-164: the `while current_date <= end_date`
loop runs once per date of `[start_date, end_date]`, i.e.
`end_date + 1 - start_date` times (zero when `end_date < start_date`). -/
def scan_dates (start_date end_date : Nat) (source_holidays : List Nat) : List Nat :=
  scan_go start_date source_holidays (end_date + 1 - start_date)

/-- `get_skip_days.py` lines 166-170: the additional rule adding every source
holiday that falls on a Friday (`weekday() == 4`) and lies in
`[start_date, end_date]`. -/
def friday_holidays (start_date end_date : Nat) (source_holidays : List Nat) : List Nat :=
  source_holidays.filter fun h =>
    ord_weekday h == 4 && decide (start_date ≤ h) && decide (h ≤ end_date)

/-- Insert a date into an ascending duplicate-free list, keeping it ascending
and duplicate-free: the building block of `sortedDedup`. -/
def insertOrd (x : Nat) : List Nat → List Nat
  | [] => [x]
  | y :: ys =>
    if x < y then x :: y :: ys
    else if x = y then y :: ys
    else y :: insertOrd x ys

/-- Python's `sorted(valid_dates)` where `valid_dates` is a `set`: the
ascending, duplicate-free list of the collected dates. -/
def sortedDedup (l : List Nat) : List Nat :=
  l.foldr insertOrd []

/-- `get_skip_days.py` lines 154-175: the skip-day computation of `main` —
the union of the scanning loop's dates and the Friday holidays, as the sorted
deduplicated list `sorted(valid_dates)` that is written out. -/
def generate_skip_days (start_date end_date : Nat) (source_holidays : List Nat) :
    List Nat :=
  sortedDedup
    (scan_dates start_date end_date source_holidays ++
      friday_holidays start_date end_date source_holidays)

/-- The four tier names of the pattern, in the order its alternatives are
tried. -/
def tier_names : List (List Char) :=
  ["Daily".toList, "Weekly".toList, "Monthly".toList, "Yearly".toList]

/-- A tape label standing at the front of `s`, in the spec's words: one of
the tier names, exactly (case-sensitively) spelled, immediately followed by
one or more digits — the digits taken maximally, so the label is the whole
contiguous `<TierName><digits>` substring at this position. `l` is that
label. -/
def spec_match_front (s l : List Char) : Prop :=
  ∃ name ds rest, name ∈ tier_names ∧ ds ≠ [] ∧ (∀ c ∈ ds, is_re_digit c = true) ∧
    s = name ++ (ds ++ rest) ∧
    (∀ c, rest.head? = some c → is_re_digit c = false) ∧ l = name ++ ds

/-- Membership in the unrolled scanning loop: the loop started at
`current_date` with `n` iterations left collects exactly the dates of
`[current_date, current_date + n)` whose weekday is Monday–Friday and whose
previous day is a holiday. -/
theorem mem_scan_go (H : List Nat) (d : Nat) :
    ∀ (n c : Nat), d ∈ scan_go c H n ↔
      c ≤ d ∧ d < c + n ∧ ord_weekday d < 5 ∧ (d - 1) ∈ H := by
  intro n
  induction n with
  | zero =>
    intro c
    simp only [scan_go, List.not_mem_nil, false_iff]
    rintro ⟨h1, h2, -, -⟩
    omega
  | succ n ih =>
    intro c
    by_cases hc : ord_weekday c < 5 ∧ (c - 1) ∈ H
    · rw [scan_go, if_pos hc]
      simp only [List.cons_append, List.nil_append, List.mem_cons, ih (c + 1)]
      constructor
      · rintro (rfl | ⟨h1, h2, h3, h4⟩)
        · exact ⟨Nat.le_refl _, by omega, hc.1, hc.2⟩
        · exact ⟨by omega, by omega, h3, h4⟩
      · rintro ⟨h1, h2, h3, h4⟩
        rcases Nat.eq_or_lt_of_le h1 with rfl | hlt
        · exact Or.inl rfl
        · exact Or.inr ⟨by omega, by omega, h3, h4⟩
    · rw [scan_go, if_neg hc]
      simp only [List.nil_append, ih (c + 1)]
      constructor
      · rintro ⟨h1, h2, h3, h4⟩
        exact ⟨by omega, by omega, h3, h4⟩
      · rintro ⟨h1, h2, h3, h4⟩
        rcases Nat.eq_or_lt_of_le h1 with rfl | hlt
        · exact absurd ⟨h3, h4⟩ hc
        · exact ⟨by omega, by omega, h3, h4⟩

/-- Membership in the scanning loop over `[start_date, end_date]` (Rule A):
exactly the weekday dates of the range whose previous day is a holiday. -/
theorem mem_scan_dates (s e : Nat) (H : List Nat) (d : Nat) :
    d ∈ scan_dates s e H ↔
      s ≤ d ∧ d ≤ e ∧ ord_weekday d < 5 ∧ (d - 1) ∈ H := by
  rw [scan_dates, mem_scan_go]
  constructor
  · rintro ⟨h1, h2, h3, h4⟩
    exact ⟨h1, by omega, h3, h4⟩
  · rintro ⟨h1, h2, h3, h4⟩
    exact ⟨h1, by omega, h3, h4⟩

/-- Membership in the Friday rule's list (Rule B): exactly the holidays that
fall on a Friday and lie in `[start_date, end_date]`. -/
theorem mem_friday_holidays (s e : Nat) (H : List Nat) (d : Nat) :
    d ∈ friday_holidays s e H ↔
      d ∈ H ∧ ord_weekday d = 4 ∧ s ≤ d ∧ d ≤ e := by
  simp [friday_holidays, List.mem_filter, and_assoc]

/-- Inserting into the ascending duplicate-free accumulator adds exactly the
new date to its members. -/
theorem mem_insertOrd (a x : Nat) (l : List Nat) :
    a ∈ insertOrd x l ↔ a = x ∨ a ∈ l := by
  induction l with
  | nil => simp [insertOrd]
  | cons y ys ih =>
    simp only [insertOrd]
    split_ifs with h1 h2
    · simp [List.mem_cons]
    · subst h2
      simp only [List.mem_cons]
      tauto
    · simp only [List.mem_cons, ih]
      tauto

/-- Inserting into a strictly ascending list keeps it strictly ascending. -/
theorem sorted_insertOrd (x : Nat) (l : List Nat) (hl : l.Sorted (· < ·)) :
    (insertOrd x l).Sorted (· < ·) := by
  induction l with
  | nil => simp [insertOrd]
  | cons y ys ih =>
    rw [List.sorted_cons] at hl
    obtain ⟨hy, hys⟩ := hl
    simp only [insertOrd]
    split_ifs with h1 h2
    · rw [List.sorted_cons]
      refine ⟨fun b hb => ?_, List.sorted_cons.mpr ⟨hy, hys⟩⟩
      rcases List.mem_cons.mp hb with rfl | hb
      · exact h1
      · exact Nat.lt_trans h1 (hy b hb)
    · exact List.sorted_cons.mpr ⟨hy, hys⟩
    · rw [List.sorted_cons]
      refine ⟨fun b hb => ?_, ih hys⟩
      rcases (mem_insertOrd b x ys).mp hb with rfl | hb
      · omega
      · exact hy b hb

/-- `sortedDedup` keeps exactly the members of its input. -/
theorem mem_sortedDedup (a : Nat) (l : List Nat) :
    a ∈ sortedDedup l ↔ a ∈ l := by
  induction l with
  | nil => simp [sortedDedup]
  | cons x xs ih =>
    simp only [sortedDedup, List.foldr_cons] at ih ⊢
    rw [mem_insertOrd, ih, List.mem_cons]

/-- `sortedDedup` returns a strictly ascending list. -/
theorem sorted_sortedDedup (l : List Nat) :
    (sortedDedup l).Sorted (· < ·) := by
  induction l with
  | nil => simp [sortedDedup]
  | cons x xs ih =>
    simp only [sortedDedup, List.foldr_cons] at ih ⊢
    exact sorted_insertOrd x _ ih

/-- Membership in a list and the boolean `contains` the source's `in` test
uses agree. -/
theorem is_public_holiday_iff (d : Date) (H : List Date) :
    is_public_holiday d H = true ↔ d ∈ H := by
  simp [is_public_holiday, List.contains, List.elem_iff]

/-- C1: the tier classifier, evaluated on `backupDay = today + 1 day`,
returns `none` when that day is a Sunday or a holiday; otherwise on a
Saturday it returns `"Yearly"` when the day of month is ≤ 7 and the month is
February or August, `"Monthly"` when the day of month is ≤ 7 otherwise, and
`"Weekly"` otherwise; and `"Daily"` on any other weekday — exactly one
outcome for every input. -/
theorem C1_tier_classifier_cases (today : Date) (H : List Date) :
    calculate_backup_pool today H =
      (if date_weekday (nextDay today) = 6 ∨ nextDay today ∈ H then none
       else if date_weekday (nextDay today) = 5 then
         if (nextDay today).day ≤ 7 ∧
             ((nextDay today).month = 2 ∨ (nextDay today).month = 8) then
           some "Yearly"
         else if (nextDay today).day ≤ 7 then some "Monthly"
         else some "Weekly"
       else some "Daily") := by
  have hm := is_public_holiday_iff (nextDay today) H
  simp only [calculate_backup_pool]
  split_ifs <;> simp_all

/-- C4: when `today + 1` is a Saturday with day of month ≤ 7 in February or
August and is not a holiday, the classifier returns `"Yearly"`, never
`"Monthly"`: the Yearly branch has priority. -/
theorem C4_yearly_priority (today : Date) (H : List Date)
    (hsat : date_weekday (nextDay today) = 5)
    (hday : (nextDay today).day ≤ 7)
    (hmonth : (nextDay today).month = 2 ∨ (nextDay today).month = 8)
    (hhol : nextDay today ∉ H) :
    calculate_backup_pool today H = some "Yearly" ∧
      calculate_backup_pool today H ≠ some "Monthly" := by
  have hm := is_public_holiday_iff (nextDay today) H
  simp only [calculate_backup_pool]
  split_ifs <;> simp_all

/-- C4 witness: `today = 2025-08-01`, so `backupDay = 2025-08-02`, the first
Saturday of August, with no holidays. -/
theorem C4_yearly_priority_witness :
    calculate_backup_pool ⟨2025, 8, 1⟩ [] = some "Yearly" ∧
      calculate_backup_pool ⟨2025, 8, 1⟩ [] ≠ some "Monthly" :=
  C4_yearly_priority ⟨2025, 8, 1⟩ [] (by decide) (by decide) (by decide)
    (by decide)

/-- C5: holiday sets that agree on membership of `today + 1` give the
classifier the same result: no other holiday influences the outcome. -/
theorem C5_holiday_noninterference (today : Date) (H1 H2 : List Date)
    (h : nextDay today ∈ H1 ↔ nextDay today ∈ H2) :
    calculate_backup_pool today H1 = calculate_backup_pool today H2 := by
  have h1 := is_public_holiday_iff (nextDay today) H1
  have h2 := is_public_holiday_iff (nextDay today) H2
  have : is_public_holiday (nextDay today) H1 =
      is_public_holiday (nextDay today) H2 := by
    rcases Bool.eq_false_or_eq_true (is_public_holiday (nextDay today) H1) with
      hb | hb <;> rcases Bool.eq_false_or_eq_true
        (is_public_holiday (nextDay today) H2) with hc | hc <;> simp_all
  simp only [calculate_backup_pool, this]

/-- C5 witness: an empty holiday set and one holding only a date different
from `today + 1` agree on `today + 1` and give the same result. -/
theorem C5_holiday_noninterference_witness :
    calculate_backup_pool ⟨2025, 8, 1⟩ [] =
      calculate_backup_pool ⟨2025, 8, 1⟩ [⟨2025, 12, 25⟩] :=
  C5_holiday_noninterference ⟨2025, 8, 1⟩ [] [⟨2025, 12, 25⟩] (by decide)

/-- C6: with no holidays, the classifier returns `none` exactly when
`today + 1` is a Sunday; on any weekday other than Saturday and Sunday it
returns `"Daily"`; and on a Saturday it returns one of `"Weekly"`,
`"Monthly"`, `"Yearly"`. -/
theorem C6_empty_holidays (today : Date) :
    (calculate_backup_pool today [] = none ↔ date_weekday (nextDay today) = 6) ∧
      (date_weekday (nextDay today) ≠ 6 → date_weekday (nextDay today) ≠ 5 →
        calculate_backup_pool today [] = some "Daily") ∧
      (date_weekday (nextDay today) = 5 →
        calculate_backup_pool today [] = some "Weekly" ∨
          calculate_backup_pool today [] = some "Monthly" ∨
          calculate_backup_pool today [] = some "Yearly") := by
  simp only [calculate_backup_pool]
  split_ifs <;> simp_all [is_public_holiday]

/-- C2: the skip-day generator returns exactly the sorted, duplicate-free
union of Rule A (the weekday dates of `[s, e]` whose previous day is a
holiday) and Rule B (the Friday holidays inside `[s, e]`); in particular
every Friday holiday of the range is in the result. -/
theorem C2_skip_days_characterization (s e : Nat) (H : List Nat) :
    (∀ d, d ∈ generate_skip_days s e H ↔
        (s ≤ d ∧ d ≤ e ∧ ord_weekday d < 5 ∧ (d - 1) ∈ H) ∨
          (d ∈ H ∧ ord_weekday d = 4 ∧ s ≤ d ∧ d ≤ e)) ∧
      (generate_skip_days s e H).Sorted (· < ·) ∧
      (generate_skip_days s e H).Nodup ∧
      (∀ h ∈ H, ord_weekday h = 4 → s ≤ h → h ≤ e →
        h ∈ generate_skip_days s e H) := by
  have hmem : ∀ d, d ∈ generate_skip_days s e H ↔
      (s ≤ d ∧ d ≤ e ∧ ord_weekday d < 5 ∧ (d - 1) ∈ H) ∨
        (d ∈ H ∧ ord_weekday d = 4 ∧ s ≤ d ∧ d ≤ e) := by
    intro d
    rw [generate_skip_days, mem_sortedDedup, List.mem_append, mem_scan_dates,
      mem_friday_holidays]
  have hsorted : (generate_skip_days s e H).Sorted (· < ·) :=
    sorted_sortedDedup _
  refine ⟨hmem, hsorted, hsorted.nodup, fun h hH hf hs he => ?_⟩
  exact (hmem h).mpr (Or.inr ⟨hH, hf, hs, he⟩)

/-- C3 counterexample: with the single Friday holiday 2025-11-28 and the
range 2025-11-24 … 2025-12-05, the result does not contain both 2025-11-28
and 2025-12-01 — the Monday 2025-12-01 is absent, since its previous day
(Sunday 2025-11-30) is not a holiday and Rule A checks only the exact
previous day. -/
theorem C3_counterexample :
    ¬(toordinal ⟨2025, 11, 28⟩ ∈
        generate_skip_days (toordinal ⟨2025, 11, 24⟩) (toordinal ⟨2025, 12, 5⟩)
          [toordinal ⟨2025, 11, 28⟩] ∧
      toordinal ⟨2025, 12, 1⟩ ∈
        generate_skip_days (toordinal ⟨2025, 11, 24⟩) (toordinal ⟨2025, 12, 5⟩)
          [toordinal ⟨2025, 11, 28⟩]) := by
  decide

/-- C3 amended: with holidays `{2025-11-28}` (a Friday) and the range
2025-11-24 … 2025-12-05, the result is exactly `[2025-11-28]` — Rule B adds
the Friday holiday itself, and Rule A adds nothing: the only day after a
holiday, 2025-11-29, is a Saturday and is excluded, while 2025-12-01's
previous day (Sunday 2025-11-30) is not a holiday. -/
theorem C3_friday_holiday_week :
    generate_skip_days (toordinal ⟨2025, 11, 24⟩) (toordinal ⟨2025, 12, 5⟩)
        [toordinal ⟨2025, 11, 28⟩] = [toordinal ⟨2025, 11, 28⟩] ∧
      toordinal ⟨2025, 12, 1⟩ ∉
        generate_skip_days (toordinal ⟨2025, 11, 24⟩) (toordinal ⟨2025, 12, 5⟩)
          [toordinal ⟨2025, 11, 28⟩] := by
  decide

/-- C7: an out-of-order range (`end < start`) yields the empty list — a
normal result, not an error. -/
theorem C7_reversed_range_empty (s e : Nat) (H : List Nat) (h : e < s) :
    generate_skip_days s e H = [] := by
  have hscan : scan_dates s e H = [] := by
    rw [scan_dates]
    have : e + 1 - s = 0 := by omega
    rw [this, scan_go]
  have hfri : friday_holidays s e H = [] := by
    rw [friday_holidays, List.filter_eq_nil_iff]
    intro a ha
    simp only [Bool.and_eq_true, decide_eq_true_eq, not_and]
    rintro ⟨-, hs⟩ he
    omega
  rw [generate_skip_days, hscan, hfri, List.append_nil, sortedDedup,
    List.foldr_nil]

/-- C7 witness: the range 2 … 1 with a nonempty holiday set gives the empty
list. -/
theorem C7_reversed_range_empty_witness :
    generate_skip_days 2 1 [5, 1] = [] :=
  C7_reversed_range_empty 2 1 [5, 1] (by decide)

/-- C9: every date the skip-day generator returns lies in `[s, e]` and falls
on a Monday–Friday weekday; Saturdays and Sundays never appear. -/
theorem C9_skip_days_in_range_weekday (s e : Nat) (H : List Nat) (d : Nat)
    (h : d ∈ generate_skip_days s e H) :
    s ≤ d ∧ d ≤ e ∧ ord_weekday d < 5 := by
  rw [generate_skip_days, mem_sortedDedup, List.mem_append, mem_scan_dates,
    mem_friday_holidays] at h
  rcases h with ⟨h1, h2, h3, -⟩ | ⟨-, h2, h3, h4⟩
  · exact ⟨h1, h2, h3⟩
  · exact ⟨h3, h4, by omega⟩

/-- C9 witness: 2025-12-26 (the Friday after Christmas 2025) is in the
result for the range 2025-12-24 … 2025-12-27, lies in the range and is a
weekday. -/
theorem C9_skip_days_in_range_weekday_witness :
    toordinal ⟨2025, 12, 24⟩ ≤ toordinal ⟨2025, 12, 26⟩ ∧
      toordinal ⟨2025, 12, 26⟩ ≤ toordinal ⟨2025, 12, 27⟩ ∧
      ord_weekday (toordinal ⟨2025, 12, 26⟩) < 5 :=
  C9_skip_days_in_range_weekday (toordinal ⟨2025, 12, 24⟩)
    (toordinal ⟨2025, 12, 27⟩) [toordinal ⟨2025, 12, 25⟩]
    (toordinal ⟨2025, 12, 26⟩) (by decide)

/-- `startsWith name s` holds exactly when `s` extends `name`. -/
theorem startsWith_iff (name : List Char) :
    ∀ s, startsWith name s = true ↔ ∃ t, s = name ++ t := by
  induction name with
  | nil =>
    intro s
    simp [startsWith]
  | cons a as ih =>
    intro s
    cases s with
    | nil => simp [startsWith]
    | cons b bs =>
      simp only [startsWith, Bool.and_eq_true, beq_iff_eq, ih bs,
        List.cons_append, List.cons.injEq]
      constructor
      · rintro ⟨rfl, t, rfl⟩
        exact ⟨t, rfl, rfl⟩
      · rintro ⟨t, rfl, rfl⟩
        exact ⟨rfl, t, rfl⟩

/-- Every character `takeDigits` keeps is a digit. -/
theorem takeDigits_all_digits :
    ∀ t : List Char, ∀ c ∈ takeDigits t, is_re_digit c = true := by
  intro t
  induction t with
  | nil => simp [takeDigits]
  | cons a cs ih =>
    by_cases ha : is_re_digit a = true
    · rw [takeDigits, if_pos ha]
      intro c hc
      rcases List.mem_cons.mp hc with rfl | hc
      · exact ha
      · exact ih c hc
    · rw [takeDigits, if_neg ha]
      simp

/-- What follows the digits `takeDigits` keeps starts with a non-digit (or
is empty): the greedy `\d+` consumes the whole digit run. -/
theorem takeDigits_decomp (t : List Char) :
    ∃ rest, t = takeDigits t ++ rest ∧
      ∀ c, rest.head? = some c → is_re_digit c = false := by
  induction t with
  | nil => exact ⟨[], rfl, by simp⟩
  | cons a cs ih =>
    by_cases ha : is_re_digit a = true
    · obtain ⟨rest, h1, h2⟩ := ih
      refine ⟨rest, ?_, h2⟩
      rw [takeDigits, if_pos ha, List.cons_append, ← h1]
    · refine ⟨a :: cs, ?_, ?_⟩
      · rw [takeDigits, if_neg ha, List.nil_append]
      · intro c hc
        simp only [List.head?_cons, Option.some_inj] at hc
        subst hc
        simpa using ha

/-- `takeDigits` on a digit run followed by a non-digit returns exactly the
run. -/
theorem takeDigits_append (ds rest : List Char)
    (h1 : ∀ c ∈ ds, is_re_digit c = true)
    (h2 : ∀ c, rest.head? = some c → is_re_digit c = false) :
    takeDigits (ds ++ rest) = ds := by
  induction ds with
  | nil =>
    rw [List.nil_append]
    cases rest with
    | nil => rfl
    | cons r rs =>
      have hr := h2 r (by rw [List.head?_cons])
      rw [takeDigits, if_neg (by simp [hr])]
  | cons a as ih =>
    have ha := h1 a (List.mem_cons_self a as)
    rw [List.cons_append, takeDigits, if_pos ha,
      ih fun c hc => h1 c (List.mem_cons_of_mem a hc)]

/-- One alternative succeeds exactly on a literal-name-then-digits
decomposition of its input, the digits maximal and nonempty. -/
theorem tryName_some_iff (name s l : List Char) :
    tryName name s = some l ↔
      ∃ ds rest, ds ≠ [] ∧ (∀ c ∈ ds, is_re_digit c = true) ∧
        s = name ++ (ds ++ rest) ∧
        (∀ c, rest.head? = some c → is_re_digit c = false) ∧ l = name ++ ds := by
  constructor
  · intro h
    rw [tryName] at h
    split_ifs at h with hsw hds
    · obtain ⟨t, rfl⟩ := (startsWith_iff name _).mp hsw
      rw [List.drop_left] at h hds
      obtain ⟨rest, hrest, hhead⟩ := takeDigits_decomp t
      refine ⟨takeDigits t, rest, hds, takeDigits_all_digits t, ?_, hhead,
        (Option.some_inj.mp h).symm⟩
      rw [← hrest]
  · rintro ⟨ds, rest, hne, hdig, rfl, hhead, rfl⟩
    have hsw : startsWith name (name ++ (ds ++ rest)) = true :=
      (startsWith_iff name _).mpr ⟨ds ++ rest, rfl⟩
    rw [tryName, if_pos hsw, List.drop_left,
      takeDigits_append ds rest hdig hhead, if_neg hne]

/-- An alternative whose literal opens with a different character than the
input fails. -/
theorem tryName_head_ne (a b : Char) (as bs : List Char)
    (h : (a == b) = false) : tryName (a :: as) (b :: bs) = none := by
  rw [tryName, if_neg]
  simp [startsWith, h]

/-- The alternation: `tryAlts` succeeds with `l` exactly when a tape label
in the spec's sense stands at the front of the input. The four alternatives
begin with four distinct characters, so at most one of them can match and
the alternation order does not matter. -/
theorem tryAlts_some_iff (s l : List Char) :
    tryAlts s = some l ↔ spec_match_front s l := by
  constructor
  · intro h
    rw [tryAlts] at h
    cases hD : tryName ("Daily".toList) s with
    | some r =>
      rw [hD] at h
      obtain ⟨ds, rest, hne, hdig, hs, hhead, hl⟩ :=
        (tryName_some_iff _ s r).mp hD
      exact ⟨"Daily".toList, ds, rest, by simp [tier_names], hne, hdig, hs,
        hhead, by simp_all⟩
    | none =>
      rw [hD] at h
      cases hW : tryName ("Weekly".toList) s with
      | some r =>
        rw [hW] at h
        obtain ⟨ds, rest, hne, hdig, hs, hhead, hl⟩ :=
          (tryName_some_iff _ s r).mp hW
        exact ⟨"Weekly".toList, ds, rest, by simp [tier_names], hne, hdig, hs,
          hhead, by simp_all⟩
      | none =>
        rw [hW] at h
        cases hM : tryName ("Monthly".toList) s with
        | some r =>
          rw [hM] at h
          obtain ⟨ds, rest, hne, hdig, hs, hhead, hl⟩ :=
            (tryName_some_iff _ s r).mp hM
          exact ⟨"Monthly".toList, ds, rest, by simp [tier_names], hne, hdig,
            hs, hhead, by simp_all⟩
        | none =>
          rw [hM] at h
          obtain ⟨ds, rest, hne, hdig, hs, hhead, hl⟩ :=
            (tryName_some_iff _ s l).mp h
          exact ⟨"Yearly".toList, ds, rest, by simp [tier_names], hne, hdig,
            hs, hhead, hl⟩
  · rintro ⟨name, ds, rest, hmem, hne, hdig, rfl, hhead, rfl⟩
    have hmem' : name = "Daily".toList ∨ name = "Weekly".toList ∨
        name = "Monthly".toList ∨ name = "Yearly".toList := by
      simpa [tier_names] using hmem
    rcases hmem' with rfl | rfl | rfl | rfl
    · have hD : tryName ("Daily".toList) ("Daily".toList ++ (ds ++ rest)) =
          some ("Daily".toList ++ ds) :=
        (tryName_some_iff _ _ _).mpr ⟨ds, rest, hne, hdig, rfl, hhead, rfl⟩
      simp only [tryAlts, hD]
    · have hD : tryName ("Daily".toList) ("Weekly".toList ++ (ds ++ rest)) =
          none :=
        tryName_head_ne 'D' 'W' ("aily".toList)
          ("eekly".toList ++ (ds ++ rest)) (by decide)
      have hW : tryName ("Weekly".toList) ("Weekly".toList ++ (ds ++ rest)) =
          some ("Weekly".toList ++ ds) :=
        (tryName_some_iff _ _ _).mpr ⟨ds, rest, hne, hdig, rfl, hhead, rfl⟩
      simp only [tryAlts, hD, hW]
    · have hD : tryName ("Daily".toList) ("Monthly".toList ++ (ds ++ rest)) =
          none :=
        tryName_head_ne 'D' 'M' ("aily".toList)
          ("onthly".toList ++ (ds ++ rest)) (by decide)
      have hW : tryName ("Weekly".toList) ("Monthly".toList ++ (ds ++ rest)) =
          none :=
        tryName_head_ne 'W' 'M' ("eekly".toList)
          ("onthly".toList ++ (ds ++ rest)) (by decide)
      have hM : tryName ("Monthly".toList) ("Monthly".toList ++ (ds ++ rest)) =
          some ("Monthly".toList ++ ds) :=
        (tryName_some_iff _ _ _).mpr ⟨ds, rest, hne, hdig, rfl, hhead, rfl⟩
      simp only [tryAlts, hD, hW, hM]
    · have hD : tryName ("Daily".toList) ("Yearly".toList ++ (ds ++ rest)) =
          none :=
        tryName_head_ne 'D' 'Y' ("aily".toList)
          ("early".toList ++ (ds ++ rest)) (by decide)
      have hW : tryName ("Weekly".toList) ("Yearly".toList ++ (ds ++ rest)) =
          none :=
        tryName_head_ne 'W' 'Y' ("eekly".toList)
          ("early".toList ++ (ds ++ rest)) (by decide)
      have hM : tryName ("Monthly".toList) ("Yearly".toList ++ (ds ++ rest)) =
          none :=
        tryName_head_ne 'M' 'Y' ("onthly".toList)
          ("early".toList ++ (ds ++ rest)) (by decide)
      have hY : tryName ("Yearly".toList) ("Yearly".toList ++ (ds ++ rest)) =
          some ("Yearly".toList ++ ds) :=
        (tryName_some_iff _ _ _).mpr ⟨ds, rest, hne, hdig, rfl, hhead, rfl⟩
      simp only [tryAlts, hD, hW, hM, hY]

/-- The alternation fails exactly when no tape label stands at the front of
the input. -/
theorem tryAlts_none_iff (s : List Char) :
    tryAlts s = none ↔ ∀ l, ¬ spec_match_front s l := by
  constructor
  · intro h l hl
    rw [← tryAlts_some_iff] at hl
    rw [h] at hl
    exact Option.noConfusion hl
  · intro h
    cases ht : tryAlts s with
    | none => rfl
    | some r => exact absurd ((tryAlts_some_iff s r).mp ht) (h r)

/-- `re.search` semantics, success: the scan returns `l` exactly when the
pattern matches at some position with `l` and fails at every earlier
position. -/
theorem search_label_some_iff (s l : List Char) :
    search_label s = some l ↔
      ∃ i, tryAlts (s.drop i) = some l ∧
        ∀ j < i, tryAlts (s.drop j) = none := by
  induction s with
  | nil =>
    simp only [search_label, List.drop_nil]
    constructor
    · intro h
      exact Option.noConfusion h
    · rintro ⟨i, hi, -⟩
      rw [show tryAlts [] = none from rfl] at hi
      exact Option.noConfusion hi
  | cons c cs ih =>
    cases h : tryAlts (c :: cs) with
    | some r =>
      simp only [search_label, h]
      constructor
      · intro hl
        refine ⟨0, ?_, ?_⟩
        · rw [List.drop_zero, h]
          exact hl
        · intro j hj
          exact absurd hj (Nat.not_lt_zero j)
      · rintro ⟨i, hi, hj⟩
        cases i with
        | zero =>
          rw [List.drop_zero, h] at hi
          exact hi
        | succ k =>
          have h0 := hj 0 (Nat.succ_pos k)
          rw [List.drop_zero, h] at h0
          exact Option.noConfusion h0
    | none =>
      simp only [search_label, h]
      rw [ih]
      constructor
      · rintro ⟨i, hi, hj⟩
        refine ⟨i + 1, ?_, ?_⟩
        · rw [List.drop_succ_cons]
          exact hi
        · intro j hjlt
          cases j with
          | zero =>
            rw [List.drop_zero]
            exact h
          | succ k =>
            rw [List.drop_succ_cons]
            exact hj k (by omega)
      · rintro ⟨i, hi, hj⟩
        cases i with
        | zero =>
          rw [List.drop_zero, h] at hi
          exact Option.noConfusion hi
        | succ k =>
          rw [List.drop_succ_cons] at hi
          refine ⟨k, hi, fun j hjlt => ?_⟩
          have := hj (j + 1) (by omega)
          rw [List.drop_succ_cons] at this
          exact this

/-- `re.search` semantics, failure: the scan returns nothing exactly when
the pattern matches at no position. -/
theorem search_label_none_iff (s : List Char) :
    search_label s = none ↔ ∀ i, tryAlts (s.drop i) = none := by
  induction s with
  | nil =>
    constructor
    · intro _ i
      rw [List.drop_nil]
      rfl
    · intro _
      rfl
  | cons c cs ih =>
    cases h : tryAlts (c :: cs) with
    | some r =>
      simp only [search_label, h]
      constructor
      · intro hcon
        exact Option.noConfusion hcon
      · intro hall
        have h0 := hall 0
        rw [List.drop_zero, h] at h0
        exact Option.noConfusion h0
    | none =>
      simp only [search_label, h]
      rw [ih]
      constructor
      · intro hall i
        cases i with
        | zero =>
          rw [List.drop_zero]
          exact h
        | succ k =>
          rw [List.drop_succ_cons]
          exact hall k
      · intro hall i
        have := hall (i + 1)
        rw [List.drop_succ_cons] at this
        exact this

/-- C8: the tape-label extractor returns the first (leftmost) contiguous
substring of the form `<TierName><digits>` — a tier name `Daily`, `Weekly`,
`Monthly` or `Yearly`, exactly spelled, immediately followed by one or more
digits (any Unicode decimal digits, as `\d` matches them) — and returns
nothing when no such substring exists; on
`"The next Volume to be used is Daily013"` it returns `"Daily013"`, on a
line with no tier keyword it returns nothing, and on `"Daily٣"` (an
Arabic-Indic digit) it returns `"Daily٣"`. -/
theorem C8_extractor_leftmost (s : List Char) :
    (∀ l, extract_tape_label s = some l ↔
        ∃ i, spec_match_front (s.drop i) l ∧
          ∀ j < i, ∀ lj, ¬ spec_match_front (s.drop j) lj) ∧
      (extract_tape_label s = none ↔
        ∀ i l, ¬ spec_match_front (s.drop i) l) ∧
      extract_tape_label ("The next Volume to be used is Daily013".toList) =
        some ("Daily013".toList) ∧
      extract_tape_label ("no tier keyword on this line".toList) = none ∧
      extract_tape_label ("Daily٣".toList) = some ("Daily٣".toList) := by
  refine ⟨fun l => ?_, ?_, by decide, by decide, by decide⟩
  · rw [extract_tape_label, search_label_some_iff]
    constructor
    · rintro ⟨i, hi, hj⟩
      exact ⟨i, (tryAlts_some_iff _ _).mp hi,
        fun j hji lj => (tryAlts_none_iff _).mp (hj j hji) lj⟩
    · rintro ⟨i, hi, hj⟩
      exact ⟨i, (tryAlts_some_iff _ _).mpr hi,
        fun j hji => (tryAlts_none_iff _).mpr (hj j hji)⟩
  · rw [extract_tape_label, search_label_none_iff]
    constructor
    · intro h i l
      exact (tryAlts_none_iff _).mp (h i) l
    · intro h i
      exact (tryAlts_none_iff _).mpr (h i)

/-- C10: the pattern has no word-boundary anchoring — on a status line in
which a tier name occurs embedded inside the longer token `BiWeekly005`, the
extractor returns the embedded label `"Weekly005"` rather than nothing. -/
theorem C10_embedded_label :
    extract_tape_label ("The next Volume to be used is BiWeekly005".toList) =
      some ("Weekly005".toList) := by
  decide
